import Mathlib

/-!
Verification of the feature-matrix test runners of `vapoursynth-rs`:
`.travis/run-tests.py` (the Travis variant) and `build/run-tests.py`
(the build variant).  Both scripts build the Cartesian product of
feature-flag groups (each extended with the empty string), join every
combination with single spaces, and invoke `cargo test --verbose
--features <string>` once per combination.  The Travis variant records
failures and keeps going; the build variant exits on the first failure.

The scripts are embedded shallowly: the environment is the optional
value of `TRAVIS_OS_NAME`, and the exit statuses of the external
`cargo` invocations are an oracle `status : Nat → Int` giving the
return code of the i-th invocation performed.
-/

namespace MatrixRunner

/-- `itertools.product` on a list of lists, in Python's iteration
order: the first group varies slowest, the last group fastest. -/
def product {α : Type} : List (List α) → List (List α)
  | [] => [[]]
  | g :: gs => g.flatMap (fun x => (product gs).map (fun t => x :: t))

/-- `str.join(sep, l)`: Python's join — elements interleaved with the
separator, no trimming, empty list gives the empty string. -/
def pyJoin (sep : String) : List String → String
  | [] => ""
  | [x] => x
  | x :: y :: xs => x ++ sep ++ pyJoin sep (y :: xs)

/-- `for f in features: f += [""]` — append the empty option to every
flag group. -/
def extendGroups (gs : List (List String)) : List (List String) :=
  gs.map (fun g => g ++ [""])

/-- `features_string = str.join(' ', features)`. -/
def featuresString (combo : List String) : String :=
  pyJoin " " combo

/-- The command line `["cargo", "test", "--verbose", "--features", s]`
passed to `subprocess`. -/
def cargoCmd (s : String) : List String :=
  ["cargo", "test", "--verbose", "--features", s]

/-- Observable trace of one run: the command lines handed to
`subprocess` in order, the lines printed to stdout in order, and the
process exit code. -/
structure RunTrace where
  invocations : List (List String)
  output : List String
  exitCode : Nat
  deriving Repr, DecidableEq

/-! ## The Travis variant, `.travis/run-tests.py` -/

/-- `VS_API_VERSIONS = ["vapoursynth-api-" + str(v) for v in range(31, 36)]`. -/
def VS_API_VERSIONS_travis : List String :=
  (List.range' 31 5).map (fun v => "vapoursynth-api-" ++ toString v)

/-- The `TRAVIS_OS_NAME` branch:
`VSSCRIPT_API_VERSIONS = ["vsscript-api-" + str(v) for v in range(31, 33)]`
when the variable is absent or equals `"osx"`, and `[]` otherwise. -/
def VSSCRIPT_API_VERSIONS_travis (travisOsName : Option String) : List String :=
  if travisOsName = none ∨ travisOsName = some "osx" then
    (List.range' 31 2).map (fun v => "vsscript-api-" ++ toString v)
  else
    []

/-- `features = [VS_API_VERSIONS, VSSCRIPT_API_VERSIONS, VAPOURSYNTH_FUNCTIONS, VSSCRIPT_FUNCTIONS]`. -/
def travisFeatureGroups (travisOsName : Option String) : List (List String) :=
  [VS_API_VERSIONS_travis,
   VSSCRIPT_API_VERSIONS_travis travisOsName,
   ["vapoursynth-functions"],
   ["vsscript-functions"]]

/-- The Travis variant's main loop over the product: print the progress
line, call `subprocess.call`, set `someone_failed` on a nonzero return
code and print the failure notice, always continue.  Returns the
invocations, the output lines and the final `someone_failed` flag;
`i` is the index of the next invocation and `failed` the flag so far. -/
def travisLoop (status : Nat → Int) : Nat → List (List String) → Bool →
    List (List String) × List String × Bool
  | _, [], failed => ([], [], failed)
  | i, c :: cs, failed =>
    let s := featuresString c
    let rc := status i
    let failed' := failed || (rc != 0)
    let thisOut :=
      if rc != 0 then
        ["Starting tests with features: " ++ s, "TEST FAILURE: " ++ s]
      else
        ["Starting tests with features: " ++ s]
    let rest := travisLoop status (i + 1) cs failed'
    (cargoCmd s :: rest.1, thisOut ++ rest.2.1, rest.2.2)

/-- The Travis variant run on an arbitrary configuration of flag
groups: extend each group with `""`, iterate the product, and exit
with code 1 when `someone_failed`, 0 otherwise (falling off the end of
the script). -/
def travisRunOn (groups : List (List String)) (status : Nat → Int) : RunTrace :=
  let combos := product (extendGroups groups)
  let r := travisLoop status 0 combos false
  { invocations := r.1
    output := r.2.1 ++
      (if r.2.2 then ["One of the tests failed, exiting with code 1."] else [])
    exitCode := if r.2.2 then 1 else 0 }

/-- `.travis/run-tests.py` with its hardcoded groups, as a function of
the environment and the status oracle. -/
def travisRun (travisOsName : Option String) (status : Nat → Int) : RunTrace :=
  travisRunOn (travisFeatureGroups travisOsName) status

/-! ## The build variant, `build/run-tests.py` -/

/-- `VS_API_VERSIONS = ["vapoursynth-api-" + str(v) for v in range(31, 37)]`. -/
def VS_API_VERSIONS_build : List String :=
  (List.range' 31 6).map (fun v => "vapoursynth-api-" ++ toString v)

/-- `VSSCRIPT_API_VERSIONS = ["vsscript-api-" + str(v) for v in range(31, 33)]`. -/
def VSSCRIPT_API_VERSIONS_build : List String :=
  (List.range' 31 2).map (fun v => "vsscript-api-" ++ toString v)

/-- The build variant's five hardcoded flag groups. -/
def buildFeatureGroups : List (List String) :=
  [VS_API_VERSIONS_build,
   VSSCRIPT_API_VERSIONS_build,
   ["vapoursynth-functions"],
   ["vsscript-functions"],
   ["f16-pixel-type"]]

/-- The build variant's main loop: print the progress line, run
`subprocess.run(..., check=True)`; a nonzero return code raises
`CalledProcessError`, which is caught, a failure line is printed and
the process exits with code 1 immediately.  Otherwise continue; if the
loop finishes, the script falls off the end with exit code 0. -/
def buildLoop (status : Nat → Int) : Nat → List (List String) →
    List (List String) × List String × Nat
  | _, [] => ([], [], 0)
  | i, c :: cs =>
    let s := featuresString c
    if status i != 0 then
      ([cargoCmd s],
       ["Starting tests with features: " ++ s,
        s ++ " failed. Exiting with code 1."],
       1)
    else
      let rest := buildLoop status (i + 1) cs
      (cargoCmd s :: rest.1,
       ("Starting tests with features: " ++ s) :: rest.2.1,
       rest.2.2)

/-- The build variant run on an arbitrary configuration of flag groups. -/
def buildRunOn (groups : List (List String)) (status : Nat → Int) : RunTrace :=
  let combos := product (extendGroups groups)
  let r := buildLoop status 0 combos
  { invocations := r.1, output := r.2.1, exitCode := r.2.2 }

/-- `build/run-tests.py` with its hardcoded groups. -/
def buildRun (status : Nat → Int) : RunTrace :=
  buildRunOn buildFeatureGroups status

/-! ## Auxiliary notions used to state the properties -/

/-- `pyJoin` at the level of character lists. -/
def pyJoinL (sep : List Char) : List (List Char) → List Char
  | [] => []
  | [x] => x
  | x :: y :: xs => x ++ sep ++ pyJoinL sep (y :: xs)

/-- A string with redundant whitespace: a leading space, a trailing
space, or two consecutive spaces. -/
def hasRedundantSpace (s : String) : Prop :=
  s.data.head? = some ' ' ∨ s.data.getLast? = some ' ' ∨
    [' ', ' '] <:+: s.data

instance (s : String) : Decidable (hasRedundantSpace s) := by
  unfold hasRedundantSpace
  infer_instance

/-- Select one element per group by index (out-of-range indices give
`""`; the uses below always stay in range). -/
def pick : List (List String) → List Nat → List String
  | _, [] => []
  | [], _ :: _ => []
  | g :: gs, i :: is => g.getD i "" :: pick gs is

/-- The index tuples of the product: for each group the indices
`0, …, size-1`, in product order. -/
def idxProduct (gs : List (List String)) : List (List Nat) :=
  product (gs.map (fun g => List.range g.length))

/-! ## General lemmas about the product enumeration -/

theorem product_length {α : Type} (gs : List (List α)) :
    (product gs).length = (gs.map List.length).prod := by
  induction gs with
  | nil => rfl
  | cons g gs ih =>
    simp only [product, List.length_flatMap, Function.comp_def, List.length_map,
      List.map_const', List.sum_replicate, smul_eq_mul, ih, List.map_cons,
      List.prod_cons]

theorem mem_product {α : Type} {gs : List (List α)} {c : List α} :
    c ∈ product gs ↔ List.Forall₂ (· ∈ ·) c gs := by
  induction gs generalizing c with
  | nil =>
    simp [product, List.forall₂_nil_right_iff]
  | cons g gs ih =>
    simp only [product, List.mem_flatMap, List.mem_map,
      List.forall₂_cons_right_iff]
    constructor
    · rintro ⟨x, hx, t, ht, rfl⟩
      exact ⟨x, t, hx, ih.mp ht, rfl⟩
    · rintro ⟨x, t, hx, ht, rfl⟩
      exact ⟨x, hx, t, ih.mpr ht, rfl⟩

theorem length_of_mem_product {α : Type} {gs : List (List α)} {c : List α}
    (h : c ∈ product gs) : c.length = gs.length :=
  (mem_product.mp h).length_eq

theorem product_nodup {α : Type} {gs : List (List α)} (h : ∀ g ∈ gs, g.Nodup) :
    (product gs).Nodup := by
  induction gs with
  | nil => simp [product]
  | cons g gs ih =>
    rw [product, List.nodup_flatMap]
    refine ⟨fun x _ => ?_, ?_⟩
    · exact (ih (fun g' hg' => h g' (List.mem_cons_of_mem _ hg'))).map
        List.cons_injective
    · have hg : g.Nodup := h g (List.mem_cons_self g gs)
      refine hg.imp ?_
      intro a b hab
      rw [Function.onFun, List.disjoint_left]
      rintro c hc hc'
      rcases List.mem_map.mp hc with ⟨t, _, rfl⟩
      rcases List.mem_map.mp hc' with ⟨t', _, heq⟩
      exact hab (List.head_eq_of_cons_eq heq.symm)

/-! ## Characterizations of the Travis variant's loop -/

theorem travisLoop_invocations (status : Nat → Int) (i : Nat)
    (cs : List (List String)) (b : Bool) :
    (travisLoop status i cs b).1 = cs.map (fun c => cargoCmd (featuresString c)) := by
  induction cs generalizing i b with
  | nil => rfl
  | cons c cs ih => simp [travisLoop, ih]

theorem travisLoop_failed_iff (status : Nat → Int) (i : Nat)
    (cs : List (List String)) (b : Bool) :
    (travisLoop status i cs b).2.2 = true ↔
      (b = true ∨ ∃ k, k < cs.length ∧ status (i + k) ≠ 0) := by
  induction cs generalizing i b with
  | nil => simp [travisLoop]
  | cons c cs ih =>
    simp only [travisLoop]
    rw [ih]
    constructor
    · rintro (hb | ⟨k, hk, hne⟩)
      · rcases Bool.or_eq_true_iff.mp hb with hb | hne
        · exact Or.inl hb
        · refine Or.inr ⟨0, by simp, ?_⟩
          simpa using hne
      · refine Or.inr ⟨k + 1, by simp only [List.length_cons]; omega, ?_⟩
        rwa [show i + (k + 1) = (i + 1) + k by omega]
    · rintro (hb | ⟨k, hk, hne⟩)
      · exact Or.inl (by simp [hb])
      · match k, hk with
        | 0, _ =>
          refine Or.inl ?_
          simp only [Nat.add_zero] at hne
          simp [hne]
        | k + 1, hk =>
          have hk' : k < cs.length := by
            simp only [List.length_cons] at hk
            omega
          refine Or.inr ⟨k, hk', ?_⟩
          rwa [show (i + 1) + k = i + (k + 1) by omega]

theorem travisRunOn_invocations (groups : List (List String)) (status : Nat → Int) :
    (travisRunOn groups status).invocations =
      (product (extendGroups groups)).map (fun c => cargoCmd (featuresString c)) :=
  travisLoop_invocations status 0 (product (extendGroups groups)) false

theorem travisRunOn_exit_one_iff (groups : List (List String)) (status : Nat → Int) :
    (travisRunOn groups status).exitCode = 1 ↔
      ∃ k, k < (product (extendGroups groups)).length ∧ status k ≠ 0 := by
  have h := travisLoop_failed_iff status 0 (product (extendGroups groups)) false
  simp only [Bool.false_eq_true, false_or, Nat.zero_add] at h
  unfold travisRunOn
  constructor
  · intro hex
    by_cases hf : (travisLoop status 0 (product (extendGroups groups)) false).2.2 = true
    · exact h.mp hf
    · simp [hf] at hex
  · intro hx
    simp [h.mpr hx]

theorem travisRunOn_exit_zero_iff (groups : List (List String)) (status : Nat → Int) :
    (travisRunOn groups status).exitCode = 0 ↔
      ∀ k, k < (product (extendGroups groups)).length → status k = 0 := by
  have h1 := travisRunOn_exit_one_iff groups status
  have hcases : (travisRunOn groups status).exitCode = 0 ∨
      (travisRunOn groups status).exitCode = 1 := by
    unfold travisRunOn
    by_cases hf : (travisLoop status 0 (product (extendGroups groups)) false).2.2 = true
    · simp [hf]
    · simp [hf]
  constructor
  · intro h0 k hk
    by_contra hne
    have := h1.mpr ⟨k, hk, hne⟩
    omega
  · intro hall
    rcases hcases with h0 | hone
    · exact h0
    · rcases h1.mp hone with ⟨k, hk, hne⟩
      exact absurd (hall k hk) hne

/-! ## Characterizations of the build variant's loop -/

theorem buildLoop_all_ok (status : Nat → Int) (i : Nat) (cs : List (List String))
    (h : ∀ k, k < cs.length → status (i + k) = 0) :
    buildLoop status i cs =
      (cs.map (fun c => cargoCmd (featuresString c)),
       cs.map (fun c => "Starting tests with features: " ++ featuresString c),
       0) := by
  induction cs generalizing i with
  | nil => rfl
  | cons c cs ih =>
    have h0 : status i = 0 := by
      have := h 0 (by simp)
      simpa using this
    have hrest : ∀ k, k < cs.length → status ((i + 1) + k) = 0 := by
      intro k hk
      have := h (k + 1) (by simp only [List.length_cons]; omega)
      rwa [show i + (k + 1) = (i + 1) + k by omega] at this
    simp [buildLoop, h0, ih (i + 1) hrest]

theorem buildLoop_first_fail (status : Nat → Int) :
    ∀ (k : Nat) (i : Nat) (cs : List (List String)),
    k < cs.length → status (i + k) ≠ 0 → (∀ j, j < k → status (i + j) = 0) →
      (buildLoop status i cs).1 =
        (cs.take (k + 1)).map (fun c => cargoCmd (featuresString c)) ∧
      (buildLoop status i cs).1.length = k + 1 ∧ (buildLoop status i cs).2.2 = 1
  | 0, i, [], hk, _, _ => by simp at hk
  | 0, i, c :: cs, _, hfail, _ => by
    simp only [Nat.add_zero] at hfail
    simp [buildLoop, hfail]
  | k + 1, i, [], hk, _, _ => by simp at hk
  | k + 1, i, c :: cs, hk, hfail, hok => by
    have h0 : status i = 0 := by
      have := hok 0 (by omega)
      simpa using this
    have hk' : k < cs.length := by
      simp only [List.length_cons] at hk
      omega
    have hfail' : status ((i + 1) + k) ≠ 0 := by
      rwa [show i + (k + 1) = (i + 1) + k by omega] at hfail
    have hok' : ∀ j, j < k → status ((i + 1) + j) = 0 := by
      intro j hj
      have := hok (j + 1) (by omega)
      rwa [show i + (j + 1) = (i + 1) + j by omega] at this
    have ih := buildLoop_first_fail status k (i + 1) cs hk' hfail' hok'
    simp [buildLoop, h0, ih.1, ih.2.1, ih.2.2, List.take_succ_cons]
    omega

theorem buildRunOn_exit_cases (groups : List (List String)) (status : Nat → Int) :
    (buildRunOn groups status).exitCode = 0 ∨ (buildRunOn groups status).exitCode = 1 := by
  by_cases hall : ∀ k, k < (product (extendGroups groups)).length → status k = 0
  · have := buildLoop_all_ok status 0 (product (extendGroups groups))
      (by simpa using hall)
    simp only [buildRunOn]
    rw [this]
    exact Or.inl rfl
  · push_neg at hall
    rcases hall with ⟨k, hk, hne⟩
    have hex : ∃ m, status m ≠ 0 := ⟨k, hne⟩
    have hmin : ∀ j, j < Nat.find hex → status j = 0 := by
      intro j hj
      by_contra hja
      exact absurd (Nat.find_min hex hj) (by simpa using hja)
    have hlt : Nat.find hex < (product (extendGroups groups)).length := by
      have : Nat.find hex ≤ k := Nat.find_le hne
      omega
    have hff := buildLoop_first_fail status (Nat.find hex) 0
      (product (extendGroups groups)) hlt (by simpa using Nat.find_spec hex)
      (by simpa using hmin)
    simp only [buildRunOn]
    rw [hff.2.2]
    simp

theorem buildRunOn_invocations_prefix (groups : List (List String)) (status : Nat → Int) :
    ∃ n, (buildRunOn groups status).invocations =
      ((product (extendGroups groups)).map (fun c => cargoCmd (featuresString c))).take n := by
  by_cases hall : ∀ k, k < (product (extendGroups groups)).length → status k = 0
  · have := buildLoop_all_ok status 0 (product (extendGroups groups))
      (by simpa using hall)
    refine ⟨(product (extendGroups groups)).length, ?_⟩
    simp only [buildRunOn]
    rw [this]
    simp
  · push_neg at hall
    rcases hall with ⟨k, hk, hne⟩
    have hex : ∃ m, status m ≠ 0 := ⟨k, hne⟩
    have hmin : ∀ j, j < Nat.find hex → status j = 0 := by
      intro j hj
      by_contra hja
      exact absurd (Nat.find_min hex hj) (by simpa using hja)
    have hlt : Nat.find hex < (product (extendGroups groups)).length := by
      have : Nat.find hex ≤ k := Nat.find_le hne
      omega
    have hff := buildLoop_first_fail status (Nat.find hex) 0
      (product (extendGroups groups)) hlt (by simpa using Nat.find_spec hex)
      (by simpa using hmin)
    refine ⟨Nat.find hex + 1, ?_⟩
    simp only [buildRunOn]
    rw [hff.1, List.map_take]

theorem buildRunOn_exit_zero_iff (groups : List (List String)) (status : Nat → Int) :
    (buildRunOn groups status).exitCode = 0 ↔
      ∀ k, k < (buildRunOn groups status).invocations.length → status k = 0 := by
  by_cases hall : ∀ k, k < (product (extendGroups groups)).length → status k = 0
  · have := buildLoop_all_ok status 0 (product (extendGroups groups))
      (by simpa using hall)
    simp only [buildRunOn]
    rw [this]
    simpa using fun k hk => hall k hk
  · push_neg at hall
    rcases hall with ⟨k, hk, hne⟩
    have hex : ∃ m, status m ≠ 0 := ⟨k, hne⟩
    have hfind := Nat.find_spec hex
    have hmin : ∀ j, j < Nat.find hex → status j = 0 := by
      intro j hj
      by_contra hja
      exact absurd (Nat.find_min hex hj) (by simpa using hja)
    have hlt : Nat.find hex < (product (extendGroups groups)).length := by
      have : Nat.find hex ≤ k := Nat.find_le hne
      omega
    have hff := buildLoop_first_fail status (Nat.find hex) 0
      (product (extendGroups groups)) hlt (by simpa using hfind)
      (by simpa using hmin)
    simp only [buildRunOn]
    constructor
    · intro h0
      exact absurd h0 (by simp [hff.2.2])
    · intro hperf
      exfalso
      refine hfind (hperf (Nat.find hex) ?_)
      simp only [hff.2.1]
      omega

/-! ## Lemmas about the space join -/

theorem pyJoin_data (sep : String) (l : List String) :
    (pyJoin sep l).data = pyJoinL sep.data (l.map String.data) := by
  induction l with
  | nil => rfl
  | cons x xs ih =>
    cases xs with
    | nil => rfl
    | cons y ys =>
      simp only [pyJoin, String.data_append, ih]
      simp [pyJoinL, List.map_cons]

theorem pyJoinL_space_redundant : ∀ (l : List (List Char)), 2 ≤ l.length → [] ∈ l →
    (pyJoinL [' '] l).head? = some ' ' ∨ (pyJoinL [' '] l).getLast? = some ' ' ∨
      [' ', ' '] <:+: pyJoinL [' '] l
  | [], hlen, _ => by simp at hlen
  | [_], hlen, _ => by simp at hlen
  | x :: y :: xs, _, hmem => by
    by_cases hx : x = []
    · subst hx
      left
      simp [pyJoinL]
    · have hmem' : [] ∈ y :: xs := by
        rcases List.mem_cons.mp hmem with h | h
        · exact absurd h.symm hx
        · exact h
      cases xs with
      | nil =>
        have hy : y = [] := by simpa using hmem'
        subst hy
        right; left
        simp [pyJoinL]
      | cons z zs =>
        have ih := pyJoinL_space_redundant (y :: z :: zs)
          (by simp only [List.length_cons]; omega) hmem'
        have hunf : pyJoinL [' '] (x :: y :: z :: zs) =
            x ++ [' '] ++ pyJoinL [' '] (y :: z :: zs) := rfl
        rw [hunf]
        rcases ih with h | h | h
        · right; right
          obtain ⟨r, hr⟩ : ∃ r, pyJoinL [' '] (y :: z :: zs) = ' ' :: r := by
            cases hrest : pyJoinL [' '] (y :: z :: zs) with
            | nil => rw [hrest] at h; simp at h
            | cons c r =>
              rw [hrest] at h
              simp only [List.head?_cons, Option.some.injEq] at h
              exact ⟨r, by rw [h]⟩
          refine ⟨x, r, ?_⟩
          rw [hr]
          simp
        · right; left
          have hne : pyJoinL [' '] (y :: z :: zs) ≠ [] := by
            intro hnil
            rw [hnil] at h
            simp at h
          rw [List.append_assoc, List.getLast?_append_of_ne_nil x (by simp),
            List.getLast?_append_of_ne_nil [' '] hne]
          exact h
        · right; right
          rcases h with ⟨s, t, hst⟩
          exact ⟨x ++ [' '] ++ s, t, by rw [← hst]; simp⟩

theorem featuresString_redundant (c : List String) (h2 : 2 ≤ c.length)
    (he : "" ∈ c) :
    hasRedundantSpace (featuresString c) ∧ featuresString c ≠ "" := by
  have hd : (featuresString c).data = pyJoinL [' '] (c.map String.data) := by
    rw [featuresString, pyJoin_data]
  have hmem : [] ∈ c.map String.data := List.mem_map.mpr ⟨"", he, rfl⟩
  have hlen : 2 ≤ (c.map String.data).length := by simpa using h2
  have hred := pyJoinL_space_redundant (c.map String.data) hlen hmem
  have hne : pyJoinL [' '] (c.map String.data) ≠ [] := by
    intro hnil
    rw [hnil] at hred
    rcases hred with h | h | h
    · simp at h
    · simp at h
    · rcases h with ⟨s, t, hst⟩
      simp at hst
  constructor
  · unfold hasRedundantSpace
    rw [hd]
    exact hred
  · intro h0
    rw [h0] at hd
    exact hne hd.symm

theorem featuresString_length : ∀ (c : List String),
    (featuresString c).length = (c.map String.length).sum + (c.length - 1)
  | [] => rfl
  | [x] => by simp [featuresString, pyJoin]
  | x :: y :: xs => by
    have ih := featuresString_length (y :: xs)
    have h1 : (" " : String).length = 1 := rfl
    simp only [featuresString, pyJoin, String.length_append, h1] at *
    simp only [List.map_cons, List.sum_cons, List.length_cons] at *
    omega

theorem replicate_empty_mem_product (gs : List (List String)) :
    List.replicate gs.length "" ∈ product (extendGroups gs) := by
  rw [mem_product]
  induction gs with
  | nil => simp [extendGroups]
  | cons g gs ih =>
    simp only [List.length_cons, List.replicate_succ, extendGroups, List.map_cons,
      List.forall₂_cons]
    exact ⟨by simp, by simpa [extendGroups] using ih⟩

/-! ## The product order is lexicographic on the group indices -/

theorem flatMap_range_getD {β : Type} (g : List String) (f : String → List β) :
    g.flatMap f = (List.range g.length).flatMap (fun i => f (g.getD i "")) := by
  induction g with
  | nil => rfl
  | cons x g ih =>
    rw [List.flatMap_cons, List.length_cons, List.range_succ_eq_map,
      List.flatMap_cons, List.flatMap_map]
    simp only [List.getD_cons_zero, List.getD_cons_succ, Function.comp_def]
    rw [ih]

theorem product_eq_map_pick (gs : List (List String)) :
    product gs = (idxProduct gs).map (pick gs) := by
  induction gs with
  | nil => rfl
  | cons g gs ih =>
    simp only [idxProduct, List.map_cons, product] at *
    rw [flatMap_range_getD g (fun x => List.map (fun t => x :: t) (product gs)),
      List.map_flatMap]
    congr 1
    funext i
    rw [ih, List.map_map, List.map_map]
    congr 1

theorem flatMap_cons_pairwise_lex :
    ∀ (P : List (List Nat)), P.Pairwise (List.Lex (· < ·)) →
    ∀ (g : List Nat), g.Pairwise (· < ·) →
      (g.flatMap (fun x => P.map (fun t => x :: t))).Pairwise (List.Lex (· < ·)) := by
  intro P hP g
  induction g with
  | nil => intro _; simp
  | cons a g' ih =>
    intro hg
    rcases List.pairwise_cons.mp hg with ⟨ha, hg'⟩
    rw [List.flatMap_cons, List.pairwise_append]
    refine ⟨?_, ih hg', ?_⟩
    · exact List.pairwise_map.mpr (hP.imp (fun h => List.Lex.cons h))
    · intro u hu v hv
      rcases List.mem_map.mp hu with ⟨t, _, rfl⟩
      rcases List.mem_flatMap.mp hv with ⟨b, hb, hvb⟩
      rcases List.mem_map.mp hvb with ⟨t2, _, rfl⟩
      exact List.Lex.rel (ha b hb)

theorem idxProduct_pairwise_lex (gs : List (List String)) :
    (idxProduct gs).Pairwise (List.Lex (· < ·)) := by
  unfold idxProduct
  induction gs with
  | nil => simp [product]
  | cons g gs ih =>
    rw [List.map_cons, product]
    exact flatMap_cons_pairwise_lex _ ih _ (List.pairwise_lt_range _)

end MatrixRunner

open MatrixRunner

example : product [["x", "y"], ["p"]] = [["x", "p"], ["y", "p"]] := by decide

example : featuresString ["x", "", "p"] = "x  p" := by decide

example : (travisRun none (fun _ => 0)).invocations.length = 72 := by decide

example : (buildRun (fun _ => 1)).invocations.length = 1 := by decide

example : (buildRun (fun _ => 0)).exitCode = 0 := by decide

/-! ## Claims -/

/-- C1 (amended): in the Travis variant, for every configuration and every
sequence of external exit statuses, if at least one invocation returns a
non-success status then every combination of the Cartesian product is still
attempted in order (no short-circuiting), the total number of invocations
equals the full product size, and the final exit code is 1.  (The build
variant instead stops at the first failure — see the counterexample.) -/
theorem C1_theorem (groups : List (List String)) (status : Nat → Int)
    (h : ∃ k, k < (product (extendGroups groups)).length ∧ status k ≠ 0) :
    (travisRunOn groups status).invocations =
      (product (extendGroups groups)).map (fun c => cargoCmd (featuresString c)) ∧
    (travisRunOn groups status).invocations.length =
      (product (extendGroups groups)).length ∧
    (travisRunOn groups status).exitCode = 1 := by
  refine ⟨travisRunOn_invocations groups status, ?_,
    (travisRunOn_exit_one_iff groups status).mpr h⟩
  rw [travisRunOn_invocations]
  simp

/-- C1 witness: with groups `[["x"], ["p"]]` and every invocation failing,
the Travis variant still performs all 4 invocations and exits with 1. -/
theorem C1_witness :
    (travisRunOn [["x"], ["p"]] (fun _ => 1)).invocations.length =
      (product (extendGroups [["x"], ["p"]])).length ∧
    (travisRunOn [["x"], ["p"]] (fun _ => 1)).exitCode = 1 :=
  let h := C1_theorem [["x"], ["p"]] (fun _ => 1) ⟨0, by decide, by decide⟩
  ⟨h.2.1, h.2.2⟩

/-- C1 counterexample: the claim quantifies over every run of the Matrix
Runner, but the build variant short-circuits: with groups `[["x"], ["p"]]`
and every invocation failing, one invocation fails yet only 1 of the 4
combinations is attempted (and the exit code is 1 immediately). -/
theorem C1_counterexample :
    (fun _ : Nat => (1 : Int)) 0 ≠ 0 ∧
    (buildRunOn [["x"], ["p"]] (fun _ => 1)).invocations.length = 1 ∧
    (product (extendGroups [["x"], ["p"]])).length = 4 ∧
    (buildRunOn [["x"], ["p"]] (fun _ => 1)).exitCode = 1 := by
  decide

/-- C2 (amended): in the Travis variant, for every configuration of N
FlagGroups (of distinct options not containing the empty string) and every
status sequence, the attempted combinations are exactly the Cartesian
product of the groups each extended with the empty option: the number of
invocations equals the product of (sᵢ+1), and the enumerated product has
no duplicates and no omissions.  (In the build variant this holds only for
runs in which no invocation fails.) -/
theorem C2_theorem (groups : List (List String)) (status : Nat → Int)
    (hnd : ∀ g ∈ groups, g.Nodup ∧ "" ∉ g) :
    (travisRunOn groups status).invocations.length =
      (groups.map (fun g => g.length + 1)).prod ∧
    (travisRunOn groups status).invocations =
      (product (extendGroups groups)).map (fun c => cargoCmd (featuresString c)) ∧
    (product (extendGroups groups)).Nodup := by
  refine ⟨?_, travisRunOn_invocations groups status, ?_⟩
  · rw [travisRunOn_invocations, List.length_map, product_length, extendGroups,
      List.map_map]
    simp [Function.comp_def]
  · refine product_nodup ?_
    intro g hg
    rcases List.mem_map.mp hg with ⟨g0, hg0, rfl⟩
    rcases hnd g0 hg0 with ⟨hn, hni⟩
    rw [List.nodup_append]
    exact ⟨hn, List.nodup_singleton "", by simpa using hni⟩

/-- C2 witness: for groups `[["x","y"], ["p"]]` the Travis variant performs
exactly (2+1)·(1+1) = 6 invocations. -/
theorem C2_witness :
    (travisRunOn [["x", "y"], ["p"]] (fun _ => 0)).invocations.length =
      ([["x", "y"], ["p"]].map (fun g => g.length + 1)).prod :=
  ( C2_theorem [["x", "y"], ["p"]] (fun _ => 0) (by decide)).1

/-- C2 counterexample: the claim quantifies over every configuration of the
runner, but in the build variant with groups `[["a","b"]]` and every
invocation failing, only 1 combination is attempted although the product
of (sᵢ+1) is 3. -/
theorem C2_counterexample :
    (buildRunOn [["a", "b"]] (fun _ => 1)).invocations.length = 1 ∧
    ([["a", "b"]].map (fun g => g.length + 1)).prod = 3 := by
  decide

/-- C3: in both variants and for every configuration, the process exit code
is 0 iff every invocation performed returned status 0, and 1 iff at least
one invocation performed returned a non-success status. -/
theorem C3_theorem (groups : List (List String)) (status : Nat → Int) :
    ((travisRunOn groups status).exitCode = 0 ↔
      ∀ k, k < (travisRunOn groups status).invocations.length → status k = 0) ∧
    ((travisRunOn groups status).exitCode = 1 ↔
      ∃ k, k < (travisRunOn groups status).invocations.length ∧ status k ≠ 0) ∧
    ((buildRunOn groups status).exitCode = 0 ↔
      ∀ k, k < (buildRunOn groups status).invocations.length → status k = 0) ∧
    ((buildRunOn groups status).exitCode = 1 ↔
      ∃ k, k < (buildRunOn groups status).invocations.length ∧ status k ≠ 0) := by
  have hlen : (travisRunOn groups status).invocations.length =
      (product (extendGroups groups)).length := by
    rw [travisRunOn_invocations]
    simp
  have htz := travisRunOn_exit_zero_iff groups status
  have hto := travisRunOn_exit_one_iff groups status
  have hbz := buildRunOn_exit_zero_iff groups status
  have hbc := buildRunOn_exit_cases groups status
  refine ⟨by rw [hlen]; exact htz, by rw [hlen]; exact hto, hbz, ?_⟩
  constructor
  · intro h1
    have : ¬ (buildRunOn groups status).exitCode = 0 := by omega
    rw [hbz] at this
    push_neg at this
    rcases this with ⟨k, hk, hne⟩
    exact ⟨k, hk, hne⟩
  · rintro ⟨k, hk, hne⟩
    rcases hbc with h0 | h1
    · exact absurd (hbz.mp h0 k hk) hne
    · exact h1

/-- C4 (amended): for every combination tuple of the product, the flag
string passed to the external test command is the tuple's elements joined
with single spaces and NOT trimmed: its length is the sum of the element
lengths plus one separator per gap, so empty selections leave leading,
trailing, or consecutive spaces in the argument. -/
theorem C4_theorem (groups : List (List String)) (status : Nat → Int)
    (c : List String) (hc : c ∈ product (extendGroups groups)) :
    cargoCmd (featuresString c) ∈ (travisRunOn groups status).invocations ∧
    (featuresString c).length = (c.map String.length).sum + (c.length - 1) := by
  constructor
  · rw [travisRunOn_invocations]
    exact List.mem_map.mpr ⟨c, hc, rfl⟩
  · exact featuresString_length c

/-- C4 witness: the combination `["x", ""]` of groups `[["x"], []]` is
joined to a 2-character string (`"x "`, with its trailing space kept). -/
theorem C4_witness :
    (featuresString ["x", ""]).length =
      ((["x", ""] : List String).map String.length).sum +
        ((["x", ""] : List String).length - 1) :=
  ( C4_theorem [["x"], ["p"]] (fun _ => 0) ["x", ""] (by decide)).2

/-- C4 counterexample: the all-empty combination of the Travis variant's
product is joined to `"   "`, which has a leading space — the claim's
"trimmed of resulting redundant whitespace" is false. -/
theorem C4_counterexample :
    ["", "", "", ""] ∈ product (extendGroups (travisFeatureGroups none)) ∧
    featuresString ["", "", "", ""] = "   " ∧
    hasRedundantSpace (featuresString ["", "", "", ""]) := by
  decide

/-- C5 (amended): for the FlagGroups A = ["x","y"] and B = ["p"] the runner
produces exactly the 6 combinations
("x","p"),("x",""),("y","p"),("y",""),("","p"),("","") in that order, whose
joined flag strings are "x p","x ","y p","y "," p"," " in that order (the
join keeps the separator next to empty selections, so the strings differ
from the claimed "x","y","p","" by residual spaces). -/
theorem C5_theorem :
    product (extendGroups [["x", "y"], ["p"]]) =
      [["x", "p"], ["x", ""], ["y", "p"], ["y", ""], ["", "p"], ["", ""]] ∧
    (product (extendGroups [["x", "y"], ["p"]])).map featuresString =
      ["x p", "x ", "y p", "y ", " p", " "] ∧
    (travisRunOn [["x", "y"], ["p"]] (fun _ => 0)).invocations.length = 6 := by
  decide

/-- C5 counterexample: the claimed joined strings are wrong — the second
combination ("x","") joins to `"x "` (with a trailing space), not `"x"`. -/
theorem C5_counterexample :
    (product (extendGroups [["x", "y"], ["p"]])).map featuresString ≠
      ["x p", "x", "y p", "y", "p", ""] ∧
    featuresString ["x", ""] = "x " := by
  decide

/-- C6: for every configuration and status sequence, the combinations are
attempted in the lexicographic order of the Cartesian product: the Travis
variant's invocation list enumerates the index tuples of the extended
groups in strictly increasing lexicographic order (group order first,
within-group order second), the build variant attempts a prefix of that
same order, and the empty option is last within every extended group. -/
theorem C6_theorem (groups : List (List String)) (status : Nat → Int) :
    (travisRunOn groups status).invocations =
      (idxProduct (extendGroups groups)).map
        (fun is => cargoCmd (featuresString (pick (extendGroups groups) is))) ∧
    (idxProduct (extendGroups groups)).Pairwise (List.Lex (· < ·)) ∧
    (∃ n, (buildRunOn groups status).invocations =
      ((product (extendGroups groups)).map (fun c => cargoCmd (featuresString c))).take n) ∧
    ∀ g ∈ extendGroups groups, g.getLast? = some "" := by
  refine ⟨?_, idxProduct_pairwise_lex _, buildRunOn_invocations_prefix groups status, ?_⟩
  · rw [travisRunOn_invocations, product_eq_map_pick, List.map_map]
    rfl
  · intro g hg
    rcases List.mem_map.mp hg with ⟨g0, _, rfl⟩
    rw [List.getLast?_append_cons]
    rfl

/-- C7 (amended): in the Travis variant the environment-derived conditional
is a pure branch evaluated once before matrix construction: the VSScript
API FlagGroup equals ["vsscript-api-31", "vsscript-api-32"] when
TRAVIS_OS_NAME is absent or equals "osx" and is empty otherwise; no other
FlagGroup depends on the environment, and every other FlagGroup is a
nonempty sequence of distinct non-empty strings.  (Contrary to the claim's
input contract, the VSScript group itself is empty — not nonempty — when
TRAVIS_OS_NAME is present with a value other than "osx".) -/
theorem C7_theorem (e1 e2 : Option String) :
    (VSSCRIPT_API_VERSIONS_travis e1 =
      if e1 = none ∨ e1 = some "osx" then ["vsscript-api-31", "vsscript-api-32"]
      else []) ∧
    (travisFeatureGroups e1).eraseIdx 1 = (travisFeatureGroups e2).eraseIdx 1 ∧
    (∀ g ∈ (travisFeatureGroups e1).eraseIdx 1, g ≠ [] ∧ g.Nodup ∧ "" ∉ g) ∧
    (∀ g ∈ travisFeatureGroups e1, g.Nodup ∧ "" ∉ g) := by
  have hvs : ∀ e, VSSCRIPT_API_VERSIONS_travis e =
      if e = none ∨ e = some "osx" then ["vsscript-api-31", "vsscript-api-32"]
      else [] := by
    intro e
    unfold VSSCRIPT_API_VERSIONS_travis
    split
    · rfl
    · rfl
  refine ⟨hvs e1, rfl, ?_, ?_⟩
  · rw [show (travisFeatureGroups e1).eraseIdx 1 =
      [VS_API_VERSIONS_travis, ["vapoursynth-functions"], ["vsscript-functions"]]
      from rfl]
    decide
  intro g hg
  rcases List.mem_cons.mp hg with rfl | hg
  · exact ⟨by decide, by decide⟩
  rcases List.mem_cons.mp hg with rfl | hg
  · rw [hvs e1]
    split
    · exact ⟨by decide, by decide⟩
    · exact ⟨List.nodup_nil, by simp⟩
  rcases List.mem_cons.mp hg with rfl | hg
  · exact ⟨by decide, by decide⟩
  rcases List.mem_cons.mp hg with rfl | hg
  · exact ⟨by decide, by decide⟩
  · simp at hg

/-- C7 counterexample: with TRAVIS_OS_NAME = "linux" the VSScript FlagGroup
is the empty list, contradicting the claim's input contract that each
FlagGroup is a nonempty sequence. -/
theorem C7_counterexample :
    VSSCRIPT_API_VERSIONS_travis (some "linux") = [] ∧
    VSSCRIPT_API_VERSIONS_travis (some "linux") ∈
      travisFeatureGroups (some "linux") := by
  decide

/-- C8: in the build variant, if the combination at position k of the
product order is the first whose invocation fails, then exactly k+1
invocations occur — the attempted combinations are exactly the first k+1
of the product — and the process exits with code 1 immediately. -/
theorem C8_theorem (status : Nat → Int) (k : Nat)
    (hk : k < (product (extendGroups buildFeatureGroups)).length)
    (hfail : status k ≠ 0) (hok : ∀ j, j < k → status j = 0) :
    (buildRun status).invocations =
      ((product (extendGroups buildFeatureGroups)).take (k + 1)).map
        (fun c => cargoCmd (featuresString c)) ∧
    (buildRun status).invocations.length = k + 1 ∧
    (buildRun status).exitCode = 1 := by
  have h := buildLoop_first_fail status k 0 (product (extendGroups buildFeatureGroups))
    hk (by simpa using hfail) (by simpa using hok)
  simp only [buildRun, buildRunOn]
  exact h

/-- C8 witness: when the very first invocation fails, the build variant
performs exactly one invocation and exits with code 1. -/
theorem C8_witness :
    (buildRun (fun _ => 1)).invocations.length = 0 + 1 ∧
    (buildRun (fun _ => 1)).exitCode = 1 :=
  let h := C8_theorem (fun _ => 1) 0 (by rw [product_length]; decide) (by decide)
    (fun j hj => absurd hj (by omega))
  ⟨h.2.1, h.2.2⟩

/-- C9: for any combination of either variant containing an empty
selection, the flag string is never empty but contains redundant
whitespace (a leading, trailing, or doubled space); the all-empty
combination — an actual combination of both variants — joins to exactly
N-1 spaces: 3 spaces in the Travis variant (4 groups) and 4 spaces in the
build variant (5 groups). -/
theorem C9_theorem (env : Option String) (c : List String)
    (hc : c ∈ product (extendGroups (travisFeatureGroups env)) ∨
          c ∈ product (extendGroups buildFeatureGroups))
    (he : "" ∈ c) :
    featuresString c ≠ "" ∧ hasRedundantSpace (featuresString c) ∧
    featuresString ["", "", "", ""] = "   " ∧
    featuresString ["", "", "", "", ""] = "    " ∧
    ["", "", "", ""] ∈ product (extendGroups (travisFeatureGroups env)) ∧
    ["", "", "", "", ""] ∈ product (extendGroups buildFeatureGroups) := by
  have hlen : 2 ≤ c.length := by
    rcases hc with h | h
    · rw [length_of_mem_product h]
      simp [extendGroups, travisFeatureGroups]
    · rw [length_of_mem_product h]
      simp [extendGroups, buildFeatureGroups]
  have hred := featuresString_redundant c hlen he
  refine ⟨hred.2, hred.1, by decide, by decide, ?_, ?_⟩
  · have := replicate_empty_mem_product (travisFeatureGroups env)
    simpa using this
  · have := replicate_empty_mem_product buildFeatureGroups
    simpa using this

/-- C9 witness: the all-empty Travis combination joins to three spaces,
which is nonempty and has redundant whitespace. -/
theorem C9_witness :
    featuresString ["", "", "", ""] ≠ "" ∧
    hasRedundantSpace (featuresString ["", "", "", ""]) :=
  let h := C9_theorem none ["", "", "", ""] (Or.inl (by decide)) (by decide)
  ⟨h.1, h.2.1⟩

/-- C10: both variants are deterministic — the run trace (invoked command
lines, printed output lines, and exit code) is a pure function of the
environment value of TRAVIS_OS_NAME and of the sequence of external exit
statuses: two runs with equal environments and pointwise-equal status
sequences have identical traces. -/
theorem C10_theorem (e1 e2 : Option String) (s1 s2 : Nat → Int)
    (he : e1 = e2) (hs : ∀ i, s1 i = s2 i) :
    travisRun e1 s1 = travisRun e2 s2 ∧ buildRun s1 = buildRun s2 := by
  subst he
  have hfun : s1 = s2 := funext hs
  subst hfun
  exact ⟨rfl, rfl⟩

/-- C10 witness: instantiated at equal concrete inputs. -/
theorem C10_witness :
    travisRun none (fun _ => 0) = travisRun none (fun _ => 0) ∧
    buildRun (fun _ => 0) = buildRun (fun _ => 0) :=
  C10_theorem none none (fun _ => 0) (fun _ => 0) rfl (fun _ => rfl)
